import Mathlib

/-!
Verification development for the mobile-zkETHer repository.

Two parts:

1. The shielded-pool ledger (Commitment Accumulator, Nullifier Set, Proof
   Verification Gateway, Ledger State Machine).  The repository contains no
   implementation of this subsystem — it appears only in planning documents —
   so every definition in this part is modelled from the specification's
   words (each such definition's doc comment starts with `Modelled from the
   spec:`).  Hashes, commitments, nullifiers and roots are embedded as `Nat`;
   the hash function and the proof-system verifier are parameters, exactly as
   the spec treats them (fixed hash family, pluggable verifier capability).

2. The mobile application screens that the remaining claims are about
   (KYC verification screen, privacy-key generation screen, wallet context).
   These are embedded from the actual TypeScript sources under `src/`.
-/

namespace ZkEther

/-! ## Part 1: the Commitment Accumulator (modelled from the spec)

The accumulator is a fixed-depth-`D` append-only Merkle tree over `Nat`
commitments, padded with a fixed empty-leaf value.  `rootUp` is the
reference bottom-up recomputation of the root from the leaf prefix;
`upStep` is the incremental O(D) path recomputation performed by `insert`,
maintaining one cached "filled subtree" hash per level. -/

/-- Modelled from the spec: the chained empty-subtree hashes.  `zerosAt hf e0 i`
is the root of a depth-`i` subtree all of whose leaves are the fixed
empty-leaf value `e0`. -/
def zerosAt (hf : Nat → Nat → Nat) (z : Nat) : Nat → Nat
  | 0 => z
  | i + 1 => hf (zerosAt hf z i) (zerosAt hf z i)

/-- Modelled from the spec: one Merkle level over the fully occupied pairs of
nodes; a trailing unpaired node is dropped (it is not yet a complete
subtree). -/
def pairUp (hf : Nat → Nat → Nat) : List Nat → List Nat
  | a :: b :: t => hf a b :: pairUp hf t
  | _ => []

/-- Modelled from the spec: one Merkle level over the occupied prefix of a
level whose remaining nodes all equal the empty-subtree value `z`; a trailing
unpaired node is hashed against `z`. -/
def levelUpP (hf : Nat → Nat → Nat) (z : Nat) : List Nat → List Nat
  | [] => []
  | [a] => [hf a z]
  | a :: b :: t => hf a b :: levelUpP hf z t

/-- Modelled from the spec: the Merkle root of depth `d` over the occupied
leaf prefix `l`, all remaining leaves being the empty-leaf value `z` —
computed bottom-up, level by level. -/
def rootUp (hf : Nat → Nat → Nat) : Nat → Nat → List Nat → Nat
  | 0, z, l => l.headD z
  | d + 1, z, l => rootUp hf d (hf z z) (levelUpP hf z l)

/-- Modelled from the spec: `d` rounds of complete-pair hashing, used by the
from-scratch reference root below. -/
def hashLevels (hf : Nat → Nat → Nat) : Nat → List Nat → List Nat
  | 0, l => l
  | d + 1, l => hashLevels hf d (pairUp hf l)

/-- Modelled from the spec: the reference root "recomputed from scratch over
`leaves[0..nextLeafIndex)` padded with empty leaves to depth D": pad the leaf
list to length `2 ^ D` with the empty-leaf value, then hash `D` levels. -/
def rootPadded (hf : Nat → Nat → Nat) (e0 : Nat) (D : Nat) (l : List Nat) : Nat :=
  (hashLevels hf D (l ++ List.replicate (2 ^ D - l.length) e0)).headD e0

/-- Modelled from the spec: the incremental O(D) insertion walk.  Starting
from the new leaf `cur` at leaf position `idx`, walk the `d` levels up to the
root; at each level the node is either a left child (cache it as the level's
filled-subtree hash and pair it with the empty-subtree value `z`) or a right
child (pair the cached filled-subtree hash with it).  Returns the new root
together with the new per-level filled-subtree cache. -/
def upStep (hf : Nat → Nat → Nat) : Nat → Nat → Nat → List Nat → Nat → Nat × List Nat
  | 0, _, cur, _, _ => (cur, [])
  | d + 1, idx, cur, filled, z =>
    if idx % 2 = 0 then
      let r := upStep hf d (idx / 2) (hf cur z) filled.tail (hf z z)
      (r.1, cur :: r.2)
    else
      let s := filled.headD 0
      let r := upStep hf d (idx / 2) (hf s cur) filled.tail (hf z z)
      (r.1, s :: r.2)

/-- The last element of a list of naturals, defaulting to `0` for the empty
list; used for the pending left sibling of an odd-length level prefix. -/
def lastD : List Nat → Nat
  | [] => 0
  | [a] => a
  | _ :: b :: t => lastD (b :: t)

/-- The coherence relation between a leaf prefix and the per-level
filled-subtree cache: at every level, whenever the next insertion at that
level lands on a right child (the occupied prefix there has odd length), the
cached entry is the completed left sibling, i.e. the last complete node of
that level. -/
def FilledInv (hf : Nat → Nat → Nat) : Nat → List Nat → List Nat → Prop
  | 0, _, filled => filled = []
  | d + 1, l, filled =>
    filled ≠ [] ∧
    (l.length % 2 = 1 → filled.headD 0 = lastD l) ∧
    FilledInv hf d (pairUp hf l) filled.tail

/-! ## Part 1 (continued): the ledger state machine (modelled from the spec) -/

/-- Modelled from the spec: the error taxonomy of §7. -/
inductive LedgerError where
  | InvalidNoteEncoding
  | MalformedPublicInputs
  | TooManyOutputs
  | AccumulatorFull
  | StaleOrUnknownRoot
  | NullifierAlreadySpent
  | InvalidProof
deriving DecidableEq, Repr

deriving instance DecidableEq for Except

/-- Modelled from the spec: the Commitment Accumulator state of §3/§4.2 —
the monotonic `nextLeafIndex` counter, the append-only `leaves` sequence,
the incrementally maintained `currentRoot`, the per-level filled-subtree
cache used by the O(D) insertion walk, and the bounded history of recent
roots (newest first). -/
structure Accumulator where
  nextLeafIndex : Nat
  leaves : List Nat
  currentRoot : Nat
  filledSubtrees : List Nat
  rootHistory : List Nat
deriving DecidableEq, Repr

/-- Modelled from the spec, §4.2 `insert(commitment) -> (leafIndex, newRoot)`:
fails with `AccumulatorFull` if `nextLeafIndex == 2^D`; otherwise appends at
`nextLeafIndex`, recomputes the ancestor hashes on the path to the root in
O(D) hash operations, updates `currentRoot`, pushes it onto the bounded root
history (capacity `N`, oldest evicted first), and increments
`nextLeafIndex`. -/
def Accumulator.insert (hf : Nat → Nat → Nat) (e0 D N : Nat) (a : Accumulator) (c : Nat) :
    Except LedgerError (Nat × Accumulator) :=
  if a.nextLeafIndex = 2 ^ D then .error .AccumulatorFull
  else
    let r := upStep hf D a.nextLeafIndex c a.filledSubtrees e0
    .ok (a.nextLeafIndex,
      { nextLeafIndex := a.nextLeafIndex + 1
        leaves := a.leaves ++ [c]
        currentRoot := r.1
        filledSubtrees := r.2
        rootHistory := (r.1 :: a.rootHistory).take N })

/-- Modelled from the spec, §4.2 `isKnownRoot(root) -> bool`: true if `root`
equals `currentRoot` or appears in the bounded history. -/
def Accumulator.isKnownRoot (a : Accumulator) (r : Nat) : Bool :=
  r == a.currentRoot || a.rootHistory.contains r

/-- Modelled from the spec: inserting a batch of commitments (a withdrawal's
output commitments) one after the other, returning their leaf indices;
the first failure aborts the batch. -/
def insertBatch (hf : Nat → Nat → Nat) (e0 D N : Nat) (a : Accumulator) :
    List Nat → Except LedgerError (List Nat × Accumulator)
  | [] => .ok ([], a)
  | c :: cs =>
    match a.insert hf e0 D N c with
    | .error err => .error err
    | .ok (i, a') =>
      match insertBatch hf e0 D N a' cs with
      | .error err => .error err
      | .ok (is, a'') => .ok (i :: is, a'')

/-- Modelled from the spec, §4.3 `insert(nullifier)`: fails with
`NullifierAlreadySpent` if already present; otherwise records it. -/
def NullifierSet.insert (ns : List Nat) (x : Nat) : Except LedgerError (List Nat) :=
  if ns.contains x then .error .NullifierAlreadySpent else .ok (ns ++ [x])

/-- Modelled from the spec, §4.4: the public inputs of a withdrawal. -/
structure PublicInputs where
  root : Nat
  nullifier : Nat
  outputCommitments : List Nat
  publicAmount : Nat
deriving DecidableEq, Repr

/-- Modelled from the spec, §4.4: the gateway's verdict. -/
inductive GatewayResult where
  | Accepted
  | Rejected (reason : LedgerError)
deriving DecidableEq, Repr

/-- Modelled from the spec, §4.4 `verifyWithdrawal(proof, publicInputs)`:
the pre-proof precondition checks — `isKnownRoot(publicInputs.root)` must
hold and the nullifier must not already be spent (the cheap fast path,
checked in the order §4.4 lists them) — followed by the delegated
cryptographic check `ProofSystem.verify`, which this core treats as a
pluggable boolean capability `verify`. -/
def verifyWithdrawal (verify : Nat → PublicInputs → Bool) (a : Accumulator)
    (ns : List Nat) (proof : Nat) (pubIn : PublicInputs) : GatewayResult :=
  if ¬ a.isKnownRoot pubIn.root then .Rejected .StaleOrUnknownRoot
  else if ns.contains pubIn.nullifier then .Rejected .NullifierAlreadySpent
  else if verify proof pubIn then .Accepted
  else .Rejected .InvalidProof

/-- Modelled from the spec, §3: the Ledger State — Accumulator plus
Nullifier Set, the single source of truth, mutated only by the two
transition operations below. -/
structure Ledger where
  acc : Accumulator
  nullifiers : List Nat
deriving DecidableEq, Repr

/-- Modelled from the spec, §4.5/§6 `submitDeposit`: inserts the commitment
into the Accumulator; any rejection returns the reason and leaves the state
unchanged (the optional external custody gate of §4.5 is not modelled — the
spec leaves it to an external collaborator).  The pair returned is
(result, post-state). -/
def submitDeposit (hf : Nat → Nat → Nat) (e0 D N : Nat) (s : Ledger) (c : Nat)
    (_amt : Nat) : Except LedgerError (Nat × Nat) × Ledger :=
  match s.acc.insert hf e0 D N c with
  | .error err => (.error err, s)
  | .ok (i, a') => (.ok (i, a'.currentRoot), { s with acc := a' })

/-- Modelled from the spec, §4.5/§6 `submitWithdrawal`: the structural
output-count bound of §4.5/§7 is checked first (structural errors are
"rejected immediately"), then the Proof Verification Gateway; on `Accepted`
the nullifier is inserted into the Nullifier Set and each output commitment
into the Accumulator, in that order, as one atomic transition — any failure
returns the reason with the state unchanged.  The pair returned is
(result, post-state), the result carrying the new output leaf indices and
the new root. -/
def submitWithdrawal (hf : Nat → Nat → Nat) (e0 D N : Nat)
    (verify : Nat → PublicInputs → Bool) (s : Ledger) (proof : Nat)
    (pubIn : PublicInputs) : Except LedgerError (List Nat × Nat) × Ledger :=
  if 2 < pubIn.outputCommitments.length then (.error .TooManyOutputs, s)
  else
    match verifyWithdrawal verify s.acc s.nullifiers proof pubIn with
    | .Rejected reason => (.error reason, s)
    | .Accepted =>
      match NullifierSet.insert s.nullifiers pubIn.nullifier with
      | .error err => (.error err, s)
      | .ok ns' =>
        match insertBatch hf e0 D N s.acc pubIn.outputCommitments with
        | .error err => (.error err, s)
        | .ok (is, a') => (.ok (is, a'.currentRoot), { acc := a', nullifiers := ns' })

/-- Modelled from the spec, §6 `getRoot()`. -/
def getRoot (s : Ledger) : Nat := s.acc.currentRoot

/-- Modelled from the spec, §6 `isNullifierSpent(nullifier)`. -/
def isNullifierSpent (s : Ledger) (x : Nat) : Bool := s.nullifiers.contains x

/-- Modelled from the spec: the initial ledger — empty leaf sequence, the
root of the all-empty tree, an empty root history, and an empty nullifier
set. -/
def initLedger (hf : Nat → Nat → Nat) (e0 D : Nat) : Ledger :=
  { acc :=
      { nextLeafIndex := 0
        leaves := []
        currentRoot := zerosAt hf e0 D
        filledSubtrees := List.replicate D e0
        rootHistory := [] }
    nullifiers := [] }

/-- Modelled from the spec: one submitted transition — a deposit or a
withdrawal (§5: transitions are applied serially, one at a time). -/
inductive Op where
  | deposit (c : Nat) (amt : Nat)
  | withdraw (proof : Nat) (pubIn : PublicInputs)

/-- Applying one transition to the ledger state. -/
def applyOp (hf : Nat → Nat → Nat) (e0 D N : Nat)
    (verify : Nat → PublicInputs → Bool) (s : Ledger) : Op → Ledger
  | .deposit c amt => (submitDeposit hf e0 D N s c amt).2
  | .withdraw proof pubIn => (submitWithdrawal hf e0 D N verify s proof pubIn).2

/-- Applying a serialized sequence of transitions. -/
def applyOps (hf : Nat → Nat → Nat) (e0 D N : Nat)
    (verify : Nat → PublicInputs → Bool) (s : Ledger) : List Op → Ledger
  | [] => s
  | op :: ops => applyOps hf e0 D N verify (applyOp hf e0 D N verify s op) ops

/-- The ledger well-formedness invariant: the leaf counter matches the leaf
sequence, the tree is within capacity, the filled-subtree cache is coherent
with the leaves, and the incrementally maintained root is the bottom-up root
of the leaves. -/
def AccInv (hf : Nat → Nat → Nat) (e0 D : Nat) (a : Accumulator) : Prop :=
  a.nextLeafIndex = a.leaves.length ∧
  a.leaves.length ≤ 2 ^ D ∧
  FilledInv hf D a.leaves a.filledSubtrees ∧
  a.currentRoot = rootUp hf D e0 a.leaves

/-- Modelled from the spec, §8 scenarios: a straight-line trace of deposits,
collecting each call's result alongside the evolving ledger. -/
def depositAll (hf : Nat → Nat → Nat) (e0 D N : Nat) (s : Ledger) :
    List Nat → List (Except LedgerError (Nat × Nat)) × Ledger
  | [] => ([], s)
  | c :: cs =>
    let r := submitDeposit hf e0 D N s c 0
    let rest := depositAll hf e0 D N r.2 cs
    (r.1 :: rest.1, rest.2)

/-- Modelled from the spec, §8 scenario 4: the roots observed via `getRoot`
after each deposit of a straight-line deposit trace, oldest first. -/
def rootsAfter (hf : Nat → Nat → Nat) (e0 D N : Nat) (s : Ledger) : List Nat → List Nat
  | [] => []
  | c :: cs =>
    let s' := (submitDeposit hf e0 D N s c 0).2
    getRoot s' :: rootsAfter hf e0 D N s' cs

/-! ## Part 2: the mobile application screens (embedded from the sources)

These definitions are translated from the TypeScript sources under `src/`.
The UI timers are embedded as the sequence of progress increments their
`setInterval` callbacks receive (in the source each increment is
`Math.random() * k + b`, a floating-point number; it is embedded as an
integer, which is sound for the claims because they depend only on
threshold comparisons of the accumulated progress); one list element is one
timer tick.  Purely cosmetic state (animation
values, the wall-clock time-remaining ticker, ISO date strings) is not
part of the embedded state. -/

/-- Embedded from `src/src/components/onboarding/KYCVerificationScreen.tsx`:
the `formData` record. -/
structure FormData where
  fullName : String
  aadhaarNumber : String
  panNumber : String
  phoneNumber : String

/-- The digits of a string, as produced by the source's
`value.replace(/\D/g, "")`. -/
def digitsOf (s : String) : List Char := s.toList.filter Char.isDigit

/-- The length of a string after removing leading and trailing whitespace —
the source's `fullName.trim().length`, embedded at the character level. -/
def trimmedLength (s : String) : Nat :=
  ((s.toList.dropWhile Char.isWhitespace).reverse.dropWhile Char.isWhitespace).length

/-- Embedded from `KYCVerificationScreen.tsx`, `isFormValid`: name of trimmed
length at least 2, a 12-digit Aadhaar, a 10-character PAN, and a 10-digit
phone number. -/
def isFormValid (fd : FormData) : Bool :=
  decide (2 ≤ trimmedLength fd.fullName) &&
  (digitsOf fd.aadhaarNumber).length == 12 &&
  fd.panNumber.length == 10 &&
  (digitsOf fd.phoneNumber).length == 10

/-- Embedded from `KYCVerificationScreen.tsx`: the `KYCStep` union type. -/
inductive KYCStep where
  | form
  | verifying
  | success
deriving DecidableEq, Repr

/-- Embedded from `KYCVerificationScreen.tsx`: the KYC record stored via
`setKYCData` on success (the wall-clock `verificationDate` is not
embedded). -/
structure KYCData where
  fullName : String
  aadhaarNumber : String
  panNumber : String
  phoneNumber : String
  isVerified : Bool
deriving DecidableEq, Repr

/-- Embedded from `KYCVerificationScreen.tsx`, the record built inside
`handleVerify`'s completion callback: it echoes the form fields (PAN
upper-cased) and unconditionally sets `isVerified := true`. -/
def kycDataOf (fd : FormData) : KYCData :=
  { fullName := fd.fullName
    aadhaarNumber := fd.aadhaarNumber
    panNumber := fd.panNumber.toUpper
    phoneNumber := fd.phoneNumber
    isVerified := true }

/-- The observable outcome of a `handleVerify` run: the screen step, the
progress value, and the KYC data stored via `setKYCData` (if any). -/
structure KYCResult where
  step : KYCStep
  progress : ℤ
  stored : Option KYCData
deriving DecidableEq, Repr

/-- Embedded from `KYCVerificationScreen.tsx`, the `setInterval` callback of
`handleVerify`: each tick either observes `prev >= 100` — clearing the
interval, moving to the `success` step and storing the KYC data — or adds
this tick's increment (`Math.random() * 8 + 2` in the source) to the
progress. -/
def kycTicks (fd : FormData) : ℤ → List ℤ → KYCResult
  | p, [] => ⟨.verifying, p, none⟩
  | p, inc :: t =>
    if 100 ≤ p then ⟨.success, 100, some (kycDataOf fd)⟩ else kycTicks fd (p + inc) t

/-- Embedded from `KYCVerificationScreen.tsx`, `handleVerify`: a no-op unless
`isFormValid`; otherwise the step becomes `verifying`, progress restarts at
0, and the timer ticks drive the run. -/
def handleVerify (fd : FormData) (incs : List ℤ) : KYCResult :=
  if isFormValid fd then kycTicks fd 0 incs else ⟨.form, 0, none⟩

/-- Embedded from `src/src/components/onboarding/GeneratePrivacyKeysScreen.tsx`:
the screen's step union type. -/
inductive GenStep where
  | explanation
  | generating
  | complete
deriving DecidableEq, Repr

/-- Embedded from `src/src/contexts` usage in the onboarding flow: the
onboarding step set by `setCurrentStep` (only the steps this screen touches
are embedded). -/
inductive OnboardingStep where
  | kyc
  | keys
  | complete
deriving DecidableEq, Repr

/-- The observable outcome of a `handleGenerate` run: the screen step, the
progress value, and the onboarding step.  The component state in the source
holds nothing else that survives the run — in particular no entropy, private
key or public key field exists anywhere in it. -/
structure GenResult where
  step : GenStep
  progress : ℤ
  onboarding : OnboardingStep
deriving DecidableEq, Repr

/-- Embedded from `GeneratePrivacyKeysScreen.tsx`, the `setInterval` callback
of `handleGenerate`: each tick either observes `prev >= 100` — clearing the
intervals, moving to the `complete` step and (after the cosmetic delay)
calling `nextStep`, i.e. `setCurrentStep("complete")` — or adds this tick's
increment (`Math.random() * 15` in the source) to the progress. -/
def genTicks : ℤ → List ℤ → GenResult
  | p, [] => ⟨.generating, p, .keys⟩
  | p, inc :: t =>
    if 100 ≤ p then ⟨.complete, 100, .complete⟩ else genTicks (p + inc) t

/-- Embedded from `GeneratePrivacyKeysScreen.tsx`, `handleGenerate`: the step
becomes `generating`, progress restarts at 0, and the timer ticks drive the
run.  No key material of any kind is computed or stored. -/
def handleGenerate (incs : List ℤ) : GenResult := genTicks 0 incs

/-- Embedded from `src/src/contexts/WalletContext.tsx`: the wallet type
tag. -/
inductive WalletKind where
  | metamask
  | walletconnect
deriving DecidableEq, Repr

/-- Embedded from `WalletContext.tsx`: which provider object the state
holds — the MetaMask SDK's `Web3Provider` or the hardcoded
`JsonRpcProvider("https://mainnet.infura.io/v3/demo")` mock. -/
inductive ProviderKind where
  | web3
  | jsonRpcDemo
deriving DecidableEq, Repr

/-- Embedded from `WalletContext.tsx`: the `WalletState` record. -/
structure WalletState where
  isConnected : Bool
  address : Option String
  provider : Option ProviderKind
  walletType : Option WalletKind
  chainId : Option String
  balance : Option String
  isConnecting : Bool
  error : Option String
deriving DecidableEq, Repr

/-- The wallet state together with the `AsyncStorage` slot written by
`saveConnection` (wallet type and address; the wall-clock timestamp is not
embedded). -/
structure WalletWorld where
  state : WalletState
  savedConnection : Option (String × String)
deriving DecidableEq, Repr

/-- Embedded from `WalletContext.tsx`, `connectWalletConnect`: the hardcoded
mock address. -/
def mockWalletAddress : String := "0x742d35Cc6634C0532925a3b8D4C9db96590C4C5b"

/-- Embedded from `WalletContext.tsx`, `connectWalletConnect`: after the
simulated 2-second delay the callback unconditionally installs the mock
state — connected, the hardcoded address, the demo JSON-RPC provider, chain
"1", balance "2.5" — and persists the connection via `saveConnection`. -/
def connectWalletConnect (_w : WalletWorld) : WalletWorld :=
  { state :=
      { isConnected := true
        address := some mockWalletAddress
        provider := some .jsonRpcDemo
        walletType := some .walletconnect
        chainId := some "1"
        balance := some "2.5"
        isConnecting := false
        error := none }
    savedConnection := some ("walletconnect", mockWalletAddress) }

/-- Embedded from `WalletContext.tsx`, `connectWallet`: sets `isConnecting`
and clears the error, then dispatches on the wallet type.  The MetaMask
branch talks to the external MetaMask SDK, embedded as the opaque transition
`mm`; the WalletConnect branch is the local mock. -/
def connectWallet (mm : WalletWorld → WalletWorld) (t : WalletKind)
    (w : WalletWorld) : WalletWorld :=
  let w1 : WalletWorld :=
    { w with state := { w.state with isConnecting := true, error := none } }
  match t with
  | .metamask => mm w1
  | .walletconnect => connectWalletConnect w1

/-! ## Concrete instances used by the executable witnesses -/

/-- A concrete hash instantiation for the executable witnesses (the theorems
are parametric in the hash). -/
def hfC : Nat → Nat → Nat := fun a b => 2 * a + 3 * b + 1

/-- The always-accepting proof-system capability, used by witnesses to
instantiate the pluggable verifier parameter. -/
def verTrue : Nat → PublicInputs → Bool := fun _ _ => true

/-- A depth-1 ledger holding one deposited commitment. -/
def ledgerW1 : Ledger := (submitDeposit hfC 0 1 4 (initLedger hfC 0 1) 5 0).2

/-- The ledger `ledgerW1` after a successful full-public-exit withdrawal
that spent nullifier `9`. -/
def ledgerW2 : Ledger :=
  (submitWithdrawal hfC 0 1 4 verTrue ledgerW1 0
    { root := getRoot ledgerW1, nullifier := 9, outputCommitments := [], publicAmount := 1 }).2


/-- A concrete valid KYC form input for the executable witnesses. -/
def fdW1 : FormData := ⟨"Rajesh Kumar", "123456789012", "ABCDE1234F", "9876543210"⟩

/-- A second, different concrete valid KYC form input for the executable
witnesses. -/
def fdW2 : FormData := ⟨"Ab", "999999999999", "ZZZZZ9999Z", "1111111111"⟩

/-! ## Lemmas about the Merkle accumulator core -/

section MerkleLemmas

variable (hf : Nat → Nat → Nat)

theorem lastD_concat (c : Nat) : ∀ l : List Nat, lastD (l ++ [c]) = c
  | [] => rfl
  | [a] => by simp [lastD]
  | a :: b :: t => by
    show lastD (a :: b :: (t ++ [c])) = c
    have ih := lastD_concat c (b :: t)
    simp only [lastD]
    exact ih

theorem zerosAt_shift : ∀ (d : Nat) (z : Nat), zerosAt hf (hf z z) d = zerosAt hf z (d + 1)
  | 0, _ => rfl
  | d + 1, z => by
    simp only [zerosAt, zerosAt_shift d z]

theorem rootUp_nil : ∀ (d : Nat) (z : Nat), rootUp hf d z [] = zerosAt hf z d
  | 0, _ => rfl
  | d + 1, z => by
    simp only [rootUp, levelUpP, rootUp_nil d (hf z z), zerosAt_shift]

theorem pairUp_length : ∀ l : List Nat, (pairUp hf l).length = l.length / 2
  | [] => by simp [pairUp]
  | [a] => by simp [pairUp]
  | a :: b :: t => by
    simp only [pairUp, List.length_cons, pairUp_length t]
    omega

theorem levelUpP_length (z : Nat) :
    ∀ l : List Nat, (levelUpP hf z l).length = (l.length + 1) / 2
  | [] => by simp [levelUpP]
  | [a] => by simp [levelUpP]
  | a :: b :: t => by
    simp only [levelUpP, List.length_cons, levelUpP_length z t]
    omega

theorem pairUp_concat_even (c : Nat) :
    ∀ l : List Nat, l.length % 2 = 0 → pairUp hf (l ++ [c]) = pairUp hf l
  | [], _ => by simp [pairUp]
  | [a], h => by simp at h
  | a :: b :: t, h => by
    have hl : t.length % 2 = 0 := by simp only [List.length_cons] at h; omega
    show pairUp hf (a :: b :: (t ++ [c])) = pairUp hf (a :: b :: t)
    simp only [pairUp]
    exact congrArg _ (pairUp_concat_even c t hl)

theorem pairUp_concat_odd (c : Nat) :
    ∀ l : List Nat, l.length % 2 = 1 →
      pairUp hf (l ++ [c]) = pairUp hf l ++ [hf (lastD l) c]
  | [], h => by simp at h
  | [a], _ => by simp [pairUp, lastD]
  | a :: b :: t, h => by
    have hl : t.length % 2 = 1 := by simp only [List.length_cons] at h; omega
    show pairUp hf (a :: b :: (t ++ [c])) =
      pairUp hf (a :: b :: t) ++ [hf (lastD (a :: b :: t)) c]
    have ht : t ≠ [] := by intro he; subst he; simp at hl
    obtain ⟨b', t', he⟩ : ∃ b' t', t = b' :: t' := by
      cases t with
      | nil => exact absurd rfl ht
      | cons x xs => exact ⟨x, xs, rfl⟩
    subst he
    have ih := pairUp_concat_odd c (b' :: t') hl
    simp only [pairUp, lastD]
    rw [List.cons_append]
    exact congrArg _ ih

theorem levelUpP_even_eq_pairUp (z : Nat) :
    ∀ l : List Nat, l.length % 2 = 0 → levelUpP hf z l = pairUp hf l
  | [], _ => by simp [levelUpP, pairUp]
  | [a], h => by simp at h
  | a :: b :: t, h => by
    have hl : t.length % 2 = 0 := by simp only [List.length_cons] at h; omega
    simp only [levelUpP, pairUp]
    exact congrArg _ (levelUpP_even_eq_pairUp z t hl)

theorem levelUpP_odd (z : Nat) :
    ∀ l : List Nat, l.length % 2 = 1 →
      levelUpP hf z l = pairUp hf l ++ [hf (lastD l) z]
  | [], h => by simp at h
  | [a], _ => by simp [levelUpP, pairUp, lastD]
  | a :: b :: t, h => by
    have hl : t.length % 2 = 1 := by simp only [List.length_cons] at h; omega
    have ht : t ≠ [] := by intro he; subst he; simp at hl
    obtain ⟨b', t', he⟩ : ∃ b' t', t = b' :: t' := by
      cases t with
      | nil => exact absurd rfl ht
      | cons x xs => exact ⟨x, xs, rfl⟩
    subst he
    have ih := levelUpP_odd z (b' :: t') hl
    simp only [levelUpP, pairUp, lastD]
    rw [List.cons_append]
    exact congrArg _ ih

theorem levelUpP_concat_even (z c : Nat) (l : List Nat) (h : l.length % 2 = 0) :
    levelUpP hf z (l ++ [c]) = pairUp hf l ++ [hf c z] := by
  have h1 : (l ++ [c]).length % 2 = 1 := by simp; omega
  rw [levelUpP_odd hf z (l ++ [c]) h1, pairUp_concat_even hf c l h, lastD_concat]

theorem levelUpP_concat_odd (z c : Nat) (l : List Nat) (h : l.length % 2 = 1) :
    levelUpP hf z (l ++ [c]) = pairUp hf l ++ [hf (lastD l) c] := by
  have h1 : (l ++ [c]).length % 2 = 0 := by simp; omega
  rw [levelUpP_even_eq_pairUp hf z (l ++ [c]) h1, pairUp_concat_odd hf c l h]

end MerkleLemmas

section MerkleCore

variable (hf : Nat → Nat → Nat)

/-- Correctness of the incremental O(D) insertion walk: started at the
position one past the occupied prefix `l` with a coherent filled-subtree
cache, `upStep` returns the bottom-up root of `l ++ [c]`, and the cache it
returns is coherent both with the new prefix `l ++ [c]` (as needed when this
walk is itself the recursive step of the level above after a right-child
step) and with the old prefix `l` (as needed after a left-child step, whose
cached value is only overwritten, never read, before completion). -/
theorem upStep_correct :
    ∀ (d : Nat) (z : Nat) (l filled : List Nat) (c : Nat),
      l.length < 2 ^ d →
      FilledInv hf d l filled →
      (upStep hf d l.length c filled z).1 = rootUp hf d z (l ++ [c]) ∧
      FilledInv hf d (l ++ [c]) (upStep hf d l.length c filled z).2 ∧
      FilledInv hf d l (upStep hf d l.length c filled z).2
  | 0, z, l, filled, c, hcap, hinv => by
    have hl : l = [] := by
      cases l with
      | nil => rfl
      | cons x xs => simp at hcap
    subst hl
    refine ⟨?_, ?_, ?_⟩ <;> simp [upStep, rootUp, FilledInv]
  | d + 1, z, l, filled, c, hcap, hinv => by
    obtain ⟨hne, hhead, htail⟩ := hinv
    have hpow : 2 ^ (d + 1) = 2 * 2 ^ d := by ring
    have hcap' : l.length / 2 < 2 ^ d := by omega
    rcases Nat.mod_two_eq_zero_or_one l.length with hpar | hpar
    · -- the new leaf is a left child at this level
      have hstep : upStep hf (d + 1) l.length c filled z =
          ((upStep hf d (l.length / 2) (hf c z) filled.tail (hf z z)).1,
            c :: (upStep hf d (l.length / 2) (hf c z) filled.tail (hf z z)).2) := by
        simp [upStep, hpar]
      have hlen : (pairUp hf l).length = l.length / 2 := pairUp_length hf l
      have ih := upStep_correct d (hf z z) (pairUp hf l) filled.tail (hf c z)
        (by rw [hlen]; exact hcap') htail
      rw [hlen] at ih
      obtain ⟨ihroot, ihA, ihB⟩ := ih
      refine ⟨?_, ?_, ?_⟩
      · rw [hstep]
        show (upStep hf d (l.length / 2) (hf c z) filled.tail (hf z z)).1 =
          rootUp hf d (hf z z) (levelUpP hf z (l ++ [c]))
        rw [levelUpP_concat_even hf z c l hpar, ihroot]
      · rw [hstep]
        refine ⟨by simp, ?_, ?_⟩
        · intro _
          simp [lastD_concat]
        · show FilledInv hf d (pairUp hf (l ++ [c])) _
          rw [pairUp_concat_even hf c l hpar]
          simpa using ihB
      · rw [hstep]
        refine ⟨by simp, ?_, ?_⟩
        · intro hodd
          exact absurd hodd (by omega)
        · simpa using ihB
    · -- the new leaf is a right child at this level
      have hsib : filled.headD 0 = lastD l := hhead hpar
      have hstep : upStep hf (d + 1) l.length c filled z =
          ((upStep hf d (l.length / 2) (hf (filled.headD 0) c) filled.tail (hf z z)).1,
            filled.headD 0 ::
              (upStep hf d (l.length / 2) (hf (filled.headD 0) c) filled.tail (hf z z)).2) := by
        simp [upStep, hpar]
      have hlen : (pairUp hf l).length = l.length / 2 := pairUp_length hf l
      have ih := upStep_correct d (hf z z) (pairUp hf l)
        filled.tail (hf (filled.headD 0) c) (by rw [hlen]; exact hcap') htail
      rw [hlen] at ih
      obtain ⟨ihroot, ihA, ihB⟩ := ih
      refine ⟨?_, ?_, ?_⟩
      · rw [hstep]
        show (upStep hf d (l.length / 2) (hf (filled.headD 0) c) filled.tail (hf z z)).1 =
          rootUp hf d (hf z z) (levelUpP hf z (l ++ [c]))
        rw [levelUpP_concat_odd hf z c l hpar, ihroot, hsib]
      · rw [hstep]
        refine ⟨by simp, ?_, ?_⟩
        · intro hodd
          exfalso
          simp only [List.length_append, List.length_singleton] at hodd
          omega
        · show FilledInv hf d (pairUp hf (l ++ [c])) _
          rw [pairUp_concat_odd hf c l hpar, ← hsib]
          simpa using ihA
      · rw [hstep]
        refine ⟨by simp, ?_, ?_⟩
        · intro _
          simpa using hsib
        · simpa using ihB

/-- The filled-subtree cache of the empty accumulator is coherent, whatever
its entries are, as long as it has one entry per level. -/
theorem FilledInv_nil : ∀ (d : Nat) (v : Nat), FilledInv hf d [] (List.replicate d v)
  | 0, _ => rfl
  | d + 1, v => by
    refine ⟨by simp, by intro h; simp at h, ?_⟩
    show FilledInv hf d (pairUp hf []) (List.replicate (d + 1) v).tail
    have h1 : pairUp hf ([] : List Nat) = [] := by simp [pairUp]
    have h2 : (List.replicate (d + 1) v).tail = List.replicate d v := by
      simp [List.replicate]
    rw [h1, h2]
    exact FilledInv_nil d v

theorem pairUp_append_of_even :
    ∀ a : List Nat, a.length % 2 = 0 →
      ∀ b : List Nat, pairUp hf (a ++ b) = pairUp hf a ++ pairUp hf b
  | [], _, b => by simp [pairUp]
  | [x], h, b => by simp at h
  | x :: y :: t, h, b => by
    have hl : t.length % 2 = 0 := by simp only [List.length_cons] at h; omega
    show pairUp hf (x :: y :: (t ++ b)) = pairUp hf (x :: y :: t) ++ pairUp hf b
    simp only [pairUp, List.cons_append]
    exact congrArg _ (pairUp_append_of_even t hl b)

theorem pairUp_replicate (z : Nat) :
    ∀ k : Nat, pairUp hf (List.replicate (2 * k) z) = List.replicate k (hf z z)
  | 0 => by simp [pairUp]
  | k + 1 => by
    have h1 : List.replicate (2 * (k + 1)) z = z :: z :: List.replicate (2 * k) z := by
      have : 2 * (k + 1) = (2 * k) + 1 + 1 := by omega
      simp [this, List.replicate]
    rw [h1]
    simp only [pairUp, pairUp_replicate z k, List.replicate]

/-- Padding a leaf prefix to the full width `2 ^ d` with the empty-leaf value
and hashing all `d` levels from scratch yields exactly the bottom-up root of
the prefix. -/
theorem hashLevels_pad :
    ∀ (d : Nat) (z : Nat) (l : List Nat), l.length ≤ 2 ^ d →
      hashLevels hf d (l ++ List.replicate (2 ^ d - l.length) z) = [rootUp hf d z l]
  | 0, z, l, hlen => by
    match l, hlen with
    | [], _ => simp [hashLevels, rootUp]
    | [a], _ => simp [hashLevels, rootUp]
    | a :: b :: t, hlen => simp at hlen
  | d + 1, z, l, hlen => by
    have hpow : 2 ^ (d + 1) = 2 * 2 ^ d := by ring
    rcases Nat.mod_two_eq_zero_or_one l.length with hpar | hpar
    · -- even prefix
      have hrep : 2 ^ (d + 1) - l.length = 2 * (2 ^ d - l.length / 2) := by omega
      have h1 : pairUp hf (l ++ List.replicate (2 ^ (d + 1) - l.length) z) =
          levelUpP hf z l ++ List.replicate (2 ^ d - (levelUpP hf z l).length) (hf z z) := by
        rw [pairUp_append_of_even hf l hpar, hrep, pairUp_replicate,
          levelUpP_even_eq_pairUp hf z l hpar, pairUp_length]
      have h2 : (levelUpP hf z l).length ≤ 2 ^ d := by
        rw [levelUpP_length]; omega
      show hashLevels hf d (pairUp hf (l ++ List.replicate (2 ^ (d + 1) - l.length) z)) =
        [rootUp hf d (hf z z) (levelUpP hf z l)]
      rw [h1]
      exact hashLevels_pad d (hf z z) (levelUpP hf z l) h2
    · -- odd prefix
      have hlt : l.length < 2 ^ (d + 1) := by
        rcases Nat.lt_or_ge l.length (2 ^ (d + 1)) with h | h
        · exact h
        · have : l.length = 2 ^ (d + 1) := le_antisymm hlen h
          omega
      have hsplit : l ++ List.replicate (2 ^ (d + 1) - l.length) z =
          (l ++ [z]) ++ List.replicate (2 ^ (d + 1) - (l.length + 1)) z := by
        have h3 : 2 ^ (d + 1) - l.length = (2 ^ (d + 1) - (l.length + 1)) + 1 := by omega
        rw [h3]
        simp [List.replicate, List.append_assoc]
      have hrep : 2 ^ (d + 1) - (l.length + 1) = 2 * (2 ^ d - (l.length + 1) / 2) := by
        omega
      have h1 : pairUp hf ((l ++ [z]) ++ List.replicate (2 ^ (d + 1) - (l.length + 1)) z) =
          levelUpP hf z l ++ List.replicate (2 ^ d - (levelUpP hf z l).length) (hf z z) := by
        rw [pairUp_append_of_even hf (l ++ [z]) (by simp; omega), hrep, pairUp_replicate,
          pairUp_concat_odd hf z l hpar, ← levelUpP_odd hf z l hpar, levelUpP_length]
      have h2 : (levelUpP hf z l).length ≤ 2 ^ d := by
        rw [levelUpP_length]; omega
      show hashLevels hf d (pairUp hf (l ++ List.replicate (2 ^ (d + 1) - l.length) z)) =
        [rootUp hf d (hf z z) (levelUpP hf z l)]
      rw [hsplit, h1]
      exact hashLevels_pad d (hf z z) (levelUpP hf z l) h2

/-- The from-scratch padded reference root agrees with the bottom-up root of
the occupied prefix. -/
theorem rootPadded_eq_rootUp (e0 D : Nat) (l : List Nat) (hlen : l.length ≤ 2 ^ D) :
    rootPadded hf e0 D l = rootUp hf D e0 l := by
  unfold rootPadded
  rw [hashLevels_pad hf D e0 l hlen]
  rfl

end MerkleCore

section LedgerLemmas

variable (hf : Nat → Nat → Nat) (e0 D N : Nat) (verify : Nat → PublicInputs → Bool)

theorem insert_ok_shape {a : Accumulator} {c i : Nat} {a' : Accumulator}
    (h : a.insert hf e0 D N c = .ok (i, a')) :
    i = a.nextLeafIndex ∧
    a' = { nextLeafIndex := a.nextLeafIndex + 1
           leaves := a.leaves ++ [c]
           currentRoot := (upStep hf D a.nextLeafIndex c a.filledSubtrees e0).1
           filledSubtrees := (upStep hf D a.nextLeafIndex c a.filledSubtrees e0).2
           rootHistory :=
             ((upStep hf D a.nextLeafIndex c a.filledSubtrees e0).1 :: a.rootHistory).take N } := by
  unfold Accumulator.insert at h
  split at h
  · exact absurd h (by simp)
  · simp only [Except.ok.injEq, Prod.mk.injEq] at h
    exact ⟨h.1.symm, h.2.symm⟩

theorem insert_error_iff {a : Accumulator} {c : Nat} {err : LedgerError} :
    a.insert hf e0 D N c = .error err ↔ (a.nextLeafIndex = 2 ^ D ∧ err = .AccumulatorFull) := by
  unfold Accumulator.insert
  split <;> simp_all [eq_comm]

theorem insert_ok_inv {a : Accumulator} {c i : Nat} {a' : Accumulator}
    (hinv : AccInv hf e0 D a) (h : a.insert hf e0 D N c = .ok (i, a')) :
    AccInv hf e0 D a' ∧ i = a.leaves.length ∧ a'.leaves = a.leaves ++ [c] := by
  obtain ⟨h1, h2, h3, h4⟩ := hinv
  obtain ⟨hi, ha⟩ := insert_ok_shape hf e0 D N h
  have hfull : ¬ a.nextLeafIndex = 2 ^ D := by
    intro hfl
    rw [Accumulator.insert, if_pos hfl] at h
    exact absurd h (by simp)
  have hlt : a.leaves.length < 2 ^ D := by omega
  have hup := upStep_correct hf D e0 a.leaves a.filledSubtrees c hlt h3
  subst ha
  refine ⟨⟨?_, ?_, ?_, ?_⟩, by omega, rfl⟩
  · simp [h1]
  · simp; omega
  · show FilledInv hf D (a.leaves ++ [c]) (upStep hf D a.nextLeafIndex c a.filledSubtrees e0).2
    rw [h1]
    exact hup.2.1
  · show (upStep hf D a.nextLeafIndex c a.filledSubtrees e0).1 = rootUp hf D e0 (a.leaves ++ [c])
    rw [h1]
    exact hup.1

theorem insertBatch_ok_shape :
    ∀ (cs : List Nat) (a : Accumulator) (is : List Nat) (a' : Accumulator),
      insertBatch hf e0 D N a cs = .ok (is, a') →
      a'.leaves = a.leaves ++ cs ∧
      a'.nextLeafIndex = a.nextLeafIndex + cs.length
  | [], a, is, a', h => by
    simp only [insertBatch, Except.ok.injEq, Prod.mk.injEq] at h
    rw [← h.2]
    simp
  | c :: cs, a, is, a', h => by
    simp only [insertBatch] at h
    split at h
    · exact absurd h (by simp)
    · rename_i i a1 heq
      split at h
      · exact absurd h (by simp)
      · rename_i is1 a2 heq2
        simp only [Except.ok.injEq, Prod.mk.injEq] at h
        obtain ⟨hsh1, hsh2⟩ := insert_ok_shape hf e0 D N heq
        have ih := insertBatch_ok_shape cs a1 is1 a2 heq2
        rw [← h.2]
        subst hsh2
        constructor
        · rw [ih.1]; simp
        · rw [ih.2]; simp; omega

theorem insertBatch_ok_inv :
    ∀ (cs : List Nat) (a : Accumulator) (is : List Nat) (a' : Accumulator),
      AccInv hf e0 D a →
      insertBatch hf e0 D N a cs = .ok (is, a') →
      AccInv hf e0 D a'
  | [], a, is, a', hinv, h => by
    simp only [insertBatch, Except.ok.injEq, Prod.mk.injEq] at h
    rw [← h.2]
    exact hinv
  | c :: cs, a, is, a', hinv, h => by
    simp only [insertBatch] at h
    split at h
    · exact absurd h (by simp)
    · rename_i i a1 heq
      split at h
      · exact absurd h (by simp)
      · rename_i is1 a2 heq2
        simp only [Except.ok.injEq, Prod.mk.injEq] at h
        have h1 := (insert_ok_inv hf e0 D N hinv heq).1
        have ih := insertBatch_ok_inv cs a1 is1 a2 h1 heq2
        rw [← h.2]
        exact ih

theorem submitDeposit_shape (s : Ledger) (c amt : Nat) :
    (∃ err, s.acc.insert hf e0 D N c = .error err ∧
      submitDeposit hf e0 D N s c amt = (.error err, s)) ∨
    (∃ i a', s.acc.insert hf e0 D N c = .ok (i, a') ∧
      submitDeposit hf e0 D N s c amt = (.ok (i, a'.currentRoot), { s with acc := a' })) := by
  unfold submitDeposit
  split
  · rename_i err heq
    exact Or.inl ⟨err, heq, rfl⟩
  · rename_i i a' heq
    exact Or.inr ⟨i, a', heq, rfl⟩

theorem submitWithdrawal_shape (s : Ledger) (proof : Nat) (pubIn : PublicInputs) :
    (∃ err, submitWithdrawal hf e0 D N verify s proof pubIn = (.error err, s)) ∨
    (s.nullifiers.contains pubIn.nullifier = false ∧
      ∃ is a', insertBatch hf e0 D N s.acc pubIn.outputCommitments = .ok (is, a') ∧
        submitWithdrawal hf e0 D N verify s proof pubIn =
          (.ok (is, a'.currentRoot),
            { acc := a', nullifiers := s.nullifiers ++ [pubIn.nullifier] })) := by
  unfold submitWithdrawal
  split
  · exact Or.inl ⟨_, rfl⟩
  · split
    · exact Or.inl ⟨_, rfl⟩
    · split
      · exact Or.inl ⟨_, rfl⟩
      · rename_i ns' heq
        have hns : s.nullifiers.contains pubIn.nullifier = false ∧
            ns' = s.nullifiers ++ [pubIn.nullifier] := by
          unfold NullifierSet.insert at heq
          split at heq
          · exact absurd heq (by simp)
          · rename_i hc
            simp only [Except.ok.injEq] at heq
            exact ⟨by simpa using hc, heq.symm⟩
        split
        · exact Or.inl ⟨_, rfl⟩
        · rename_i is a' heq2
          rcases hns with ⟨hc, hns⟩
          subst hns
          exact Or.inr ⟨hc, is, a', heq2, rfl⟩

theorem submitDeposit_error_state {s : Ledger} {c amt : Nat} {err : LedgerError}
    (h : (submitDeposit hf e0 D N s c amt).1 = .error err) :
    (submitDeposit hf e0 D N s c amt).2 = s := by
  rcases submitDeposit_shape hf e0 D N s c amt with ⟨e, _, hep⟩ | ⟨i, a', _, hok⟩
  · rw [hep]
  · rw [hok] at h
    simp at h

theorem submitWithdrawal_error_state {s : Ledger} {proof : Nat} {pubIn : PublicInputs}
    {err : LedgerError}
    (h : (submitWithdrawal hf e0 D N verify s proof pubIn).1 = .error err) :
    (submitWithdrawal hf e0 D N verify s proof pubIn).2 = s := by
  rcases submitWithdrawal_shape hf e0 D N verify s proof pubIn with
    ⟨e, hep⟩ | ⟨_, is, a', _, hok⟩
  · rw [hep]
  · rw [hok] at h
    simp at h

theorem applyOp_extends (s : Ledger) (op : Op) :
    ∃ t u, (applyOp hf e0 D N verify s op).acc.leaves = s.acc.leaves ++ t ∧
      (applyOp hf e0 D N verify s op).acc.nextLeafIndex = s.acc.nextLeafIndex + t.length ∧
      (applyOp hf e0 D N verify s op).nullifiers = s.nullifiers ++ u := by
  cases op with
  | deposit c amt =>
    have happ : applyOp hf e0 D N verify s (.deposit c amt) =
        (submitDeposit hf e0 D N s c amt).2 := rfl
    rcases submitDeposit_shape hf e0 D N s c amt with ⟨e, _, hep⟩ | ⟨i, a', heq, hok⟩
    · rw [happ, hep]
      exact ⟨[], [], by simp⟩
    · rw [happ, hok]
      obtain ⟨hi, ha⟩ := insert_ok_shape hf e0 D N heq
      subst ha
      exact ⟨[c], [], by simp⟩
  | withdraw proof pubIn =>
    have happ : applyOp hf e0 D N verify s (.withdraw proof pubIn) =
        (submitWithdrawal hf e0 D N verify s proof pubIn).2 := rfl
    rcases submitWithdrawal_shape hf e0 D N verify s proof pubIn with
      ⟨e, hep⟩ | ⟨hc, is, a', heq, hok⟩
    · rw [happ, hep]
      exact ⟨[], [], by simp⟩
    · rw [happ, hok]
      have hsh := insertBatch_ok_shape hf e0 D N pubIn.outputCommitments s.acc is a' heq
      exact ⟨pubIn.outputCommitments, [pubIn.nullifier], hsh.1, hsh.2, rfl⟩

theorem applyOps_extends (s : Ledger) :
    ∀ ops : List Op,
      ∃ t u, (applyOps hf e0 D N verify s ops).acc.leaves = s.acc.leaves ++ t ∧
        (applyOps hf e0 D N verify s ops).acc.nextLeafIndex = s.acc.nextLeafIndex + t.length ∧
        (applyOps hf e0 D N verify s ops).nullifiers = s.nullifiers ++ u := by
  intro ops
  induction ops generalizing s with
  | nil => exact ⟨[], [], by simp [applyOps]⟩
  | cons op ops ih =>
    obtain ⟨t1, u1, ha1, hb1, hc1⟩ := applyOp_extends hf e0 D N verify s op
    obtain ⟨t2, u2, ha2, hb2, hc2⟩ := ih (applyOp hf e0 D N verify s op)
    refine ⟨t1 ++ t2, u1 ++ u2, ?_, ?_, ?_⟩
    · show (applyOps hf e0 D N verify (applyOp hf e0 D N verify s op) ops).acc.leaves = _
      rw [ha2, ha1]
      simp
    · show (applyOps hf e0 D N verify (applyOp hf e0 D N verify s op) ops).acc.nextLeafIndex = _
      rw [hb2, hb1]
      simp
      omega
    · show (applyOps hf e0 D N verify (applyOp hf e0 D N verify s op) ops).nullifiers = _
      rw [hc2, hc1]
      simp

theorem applyOp_inv {s : Ledger} (op : Op) (hinv : AccInv hf e0 D s.acc) :
    AccInv hf e0 D (applyOp hf e0 D N verify s op).acc := by
  cases op with
  | deposit c amt =>
    have happ : applyOp hf e0 D N verify s (.deposit c amt) =
        (submitDeposit hf e0 D N s c amt).2 := rfl
    rcases submitDeposit_shape hf e0 D N s c amt with ⟨e, _, hep⟩ | ⟨i, a', heq, hok⟩
    · rw [happ, hep]
      exact hinv
    · rw [happ, hok]
      exact (insert_ok_inv hf e0 D N hinv heq).1
  | withdraw proof pubIn =>
    have happ : applyOp hf e0 D N verify s (.withdraw proof pubIn) =
        (submitWithdrawal hf e0 D N verify s proof pubIn).2 := rfl
    rcases submitWithdrawal_shape hf e0 D N verify s proof pubIn with
      ⟨e, hep⟩ | ⟨hc, is, a', heq, hok⟩
    · rw [happ, hep]
      exact hinv
    · rw [happ, hok]
      exact insertBatch_ok_inv hf e0 D N pubIn.outputCommitments s.acc is a' hinv heq

theorem applyOps_inv {s : Ledger} (hinv : AccInv hf e0 D s.acc) :
    ∀ ops : List Op, AccInv hf e0 D (applyOps hf e0 D N verify s ops).acc := by
  intro ops
  induction ops generalizing s with
  | nil => exact hinv
  | cons op ops ih =>
    exact ih (applyOp_inv hf e0 D N verify op hinv)

theorem initLedger_inv : AccInv hf e0 D (initLedger hf e0 D).acc := by
  refine ⟨rfl, by simp [initLedger], ?_, ?_⟩
  · exact FilledInv_nil hf D e0
  · show zerosAt hf e0 D = rootUp hf D e0 []
    rw [rootUp_nil]

end LedgerLemmas


section GatewayLemmas

variable (hf : Nat → Nat → Nat) (e0 D N : Nat) (verify : Nat → PublicInputs → Bool)

theorem contains_true_of_mem {l : List Nat} {x : Nat} (h : x ∈ l) :
    l.contains x = true := by
  simpa using h

theorem contains_false_of_not_mem {l : List Nat} {x : Nat} (h : x ∉ l) :
    l.contains x = false := by
  simpa using h

theorem verifyWithdrawal_spent {a : Accumulator} {ns : List Nat} {proof : Nat}
    {pubIn : PublicInputs} (hk : a.isKnownRoot pubIn.root = true)
    (hc : ns.contains pubIn.nullifier = true) :
    verifyWithdrawal verify a ns proof pubIn = .Rejected .NullifierAlreadySpent := by
  unfold verifyWithdrawal
  rw [if_neg (by simp [hk]), if_pos hc]

theorem verifyWithdrawal_unknown_root {a : Accumulator} {ns : List Nat} {proof : Nat}
    {pubIn : PublicInputs} (hk : a.isKnownRoot pubIn.root = false) :
    verifyWithdrawal verify a ns proof pubIn = .Rejected .StaleOrUnknownRoot := by
  unfold verifyWithdrawal
  rw [if_pos (by simp [hk])]

theorem verifyWithdrawal_accepted {a : Accumulator} {ns : List Nat} {proof : Nat}
    {pubIn : PublicInputs} (hk : a.isKnownRoot pubIn.root = true)
    (hc : ns.contains pubIn.nullifier = false) (hv : verify proof pubIn = true) :
    verifyWithdrawal verify a ns proof pubIn = .Accepted := by
  unfold verifyWithdrawal
  rw [if_neg (by simp [hk]), if_neg (by rw [hc]; simp), if_pos hv]

theorem withdraw_spent_any_error {s : Ledger} {proof : Nat} {pubIn : PublicInputs}
    (hmem : pubIn.nullifier ∈ s.nullifiers) :
    ∃ err, submitWithdrawal hf e0 D N verify s proof pubIn = (.error err, s) := by
  unfold submitWithdrawal
  split
  · exact ⟨_, rfl⟩
  · by_cases hk : s.acc.isKnownRoot pubIn.root = true
    · rw [verifyWithdrawal_spent verify hk (contains_true_of_mem hmem)]
      exact ⟨_, rfl⟩
    · rw [verifyWithdrawal_unknown_root verify (by simpa using hk)]
      exact ⟨_, rfl⟩

theorem withdraw_spent_specific {s : Ledger} {proof : Nat} {pubIn : PublicInputs}
    (hmem : pubIn.nullifier ∈ s.nullifiers)
    (houts : pubIn.outputCommitments.length ≤ 2)
    (hk : s.acc.isKnownRoot pubIn.root = true) :
    submitWithdrawal hf e0 D N verify s proof pubIn = (.error .NullifierAlreadySpent, s) := by
  unfold submitWithdrawal
  rw [if_neg (by omega), verifyWithdrawal_spent verify hk (contains_true_of_mem hmem)]

theorem withdraw_unknown_root_rejected {s : Ledger} {proof : Nat} {pubIn : PublicInputs}
    (houts : pubIn.outputCommitments.length ≤ 2)
    (hk : s.acc.isKnownRoot pubIn.root = false) :
    submitWithdrawal hf e0 D N verify s proof pubIn = (.error .StaleOrUnknownRoot, s) := by
  unfold submitWithdrawal
  rw [if_neg (by omega), verifyWithdrawal_unknown_root verify hk]

theorem applyOp_nodup {s : Ledger} (op : Op) (h : s.nullifiers.Nodup) :
    (applyOp hf e0 D N verify s op).nullifiers.Nodup := by
  cases op with
  | deposit c amt =>
    have happ : applyOp hf e0 D N verify s (.deposit c amt) =
        (submitDeposit hf e0 D N s c amt).2 := rfl
    rcases submitDeposit_shape hf e0 D N s c amt with ⟨e, _, hep⟩ | ⟨i, a', heq, hok⟩
    · rw [happ, hep]; exact h
    · rw [happ, hok]; exact h
  | withdraw proof pubIn =>
    have happ : applyOp hf e0 D N verify s (.withdraw proof pubIn) =
        (submitWithdrawal hf e0 D N verify s proof pubIn).2 := rfl
    rcases submitWithdrawal_shape hf e0 D N verify s proof pubIn with
      ⟨e, hep⟩ | ⟨hc, is, a', heq, hok⟩
    · rw [happ, hep]; exact h
    · rw [happ, hok]
      have hx : pubIn.nullifier ∉ s.nullifiers := by simpa using hc
      simp [List.nodup_append, hx, h]

theorem applyOps_nodup {s : Ledger} (h : s.nullifiers.Nodup) :
    ∀ ops : List Op, (applyOps hf e0 D N verify s ops).nullifiers.Nodup := by
  intro ops
  induction ops generalizing s with
  | nil => exact h
  | cons op ops ih => exact ih (applyOp_nodup hf e0 D N verify op h)

end GatewayLemmas

/-! ## The claims -/

/-- C1, corrected.  The claim as frozen asserts that every subsequent
withdrawal attempt carrying an already-spent nullifier is rejected with
`NullifierAlreadySpent`; but an attempt that additionally violates the
structural output bound is rejected with the structural error instead
(§7: structural errors are "rejected immediately").  Concretely: in
`ledgerW2` nullifier `9` is spent, yet a subsequent attempt carrying
nullifier `9` together with three output commitments is rejected with
`TooManyOutputs`, not `NullifierAlreadySpent` (the state is still
unchanged). -/
theorem spent_nullifier_can_be_rejected_with_structural_error :
    9 ∈ ledgerW2.nullifiers ∧
    submitWithdrawal hfC 0 1 4 verTrue ledgerW2 0
      ⟨getRoot ledgerW2, 9, [1, 2, 3], 0⟩ = (.error .TooManyOutputs, ledgerW2) ∧
    LedgerError.TooManyOutputs ≠ LedgerError.NullifierAlreadySpent := by
  refine ⟨by decide, by decide, by decide⟩

/-- C1 (amended): once a nullifier `x` is in the Nullifier Set, (i) no later
transition sequence ever removes it, (ii) the set never collects a
duplicate of it, (iii) every subsequent withdrawal attempt carrying `x` is
rejected with some error and applies no state change — regardless of proof
validity, since the check precedes proof verification — and (iv) whenever
such an attempt passes the structural output bound and names a known root
(in particular, an attempt carrying a cryptographically valid proof against
the current root), the rejection reason is exactly `NullifierAlreadySpent`. -/
theorem nullifier_permanence_and_double_spend_rejection :
    ∀ (hf : Nat → Nat → Nat) (e0 D N : Nat) (verify : Nat → PublicInputs → Bool)
      (s : Ledger) (x : Nat) (ops : List Op) (proof : Nat) (pubIn : PublicInputs),
      (x ∈ s.nullifiers → x ∈ (applyOps hf e0 D N verify s ops).nullifiers) ∧
      (s.nullifiers.Nodup → (applyOps hf e0 D N verify s ops).nullifiers.Nodup) ∧
      (pubIn.nullifier ∈ s.nullifiers →
        ∃ err, submitWithdrawal hf e0 D N verify s proof pubIn = (.error err, s)) ∧
      (pubIn.nullifier ∈ s.nullifiers → pubIn.outputCommitments.length ≤ 2 →
        s.acc.isKnownRoot pubIn.root = true →
        submitWithdrawal hf e0 D N verify s proof pubIn =
          (.error .NullifierAlreadySpent, s)) := by
  intro hf e0 D N verify s x ops proof pubIn
  refine ⟨?_, ?_, ?_, ?_⟩
  · intro hx
    obtain ⟨t, u, _, _, hns⟩ := applyOps_extends hf e0 D N verify s ops
    rw [hns]
    exact List.mem_append_left u hx
  · intro hnd
    exact applyOps_nodup hf e0 D N verify hnd ops
  · intro hmem
    exact withdraw_spent_any_error hf e0 D N verify hmem
  · intro hmem houts hk
    exact withdraw_spent_specific hf e0 D N verify hmem houts hk

/-- Witness for C1's amended theorem: in `ledgerW2`, where nullifier `9` is
spent, a well-formed subsequent attempt carrying `9` — with a known root,
no output commitments, and a verifier that accepts everything — is rejected
with exactly `NullifierAlreadySpent`, leaving the state unchanged. -/
theorem nullifier_permanence_witness :
    submitWithdrawal hfC 0 1 4 verTrue ledgerW2 0 ⟨getRoot ledgerW2, 9, [], 0⟩ =
      (.error .NullifierAlreadySpent, ledgerW2) :=
  (nullifier_permanence_and_double_spend_rejection hfC 0 1 4 verTrue ledgerW2 9 [] 0
    ⟨getRoot ledgerW2, 9, [], 0⟩).2.2.2 (by decide) (by decide) (by decide)

/-- C2: any call to `submitWithdrawal` that returns an error, and any
rejected deposit, leaves the ledger state — the whole state, and in
particular the leaf sequence, the leaf counter, the current root, the
bounded root history, and the Nullifier Set — exactly as it was. -/
theorem rejected_transition_leaves_state_unchanged :
    ∀ (hf : Nat → Nat → Nat) (e0 D N : Nat) (verify : Nat → PublicInputs → Bool)
      (s : Ledger) (proof : Nat) (pubIn : PublicInputs) (c amt : Nat)
      (err err' : LedgerError),
      ((submitWithdrawal hf e0 D N verify s proof pubIn).1 = .error err →
        (submitWithdrawal hf e0 D N verify s proof pubIn).2 = s ∧
        (submitWithdrawal hf e0 D N verify s proof pubIn).2.acc.leaves = s.acc.leaves ∧
        (submitWithdrawal hf e0 D N verify s proof pubIn).2.acc.nextLeafIndex =
          s.acc.nextLeafIndex ∧
        (submitWithdrawal hf e0 D N verify s proof pubIn).2.acc.currentRoot =
          s.acc.currentRoot ∧
        (submitWithdrawal hf e0 D N verify s proof pubIn).2.acc.rootHistory =
          s.acc.rootHistory ∧
        (submitWithdrawal hf e0 D N verify s proof pubIn).2.nullifiers = s.nullifiers) ∧
      ((submitDeposit hf e0 D N s c amt).1 = .error err' →
        (submitDeposit hf e0 D N s c amt).2 = s) := by
  intro hf e0 D N verify s proof pubIn c amt err err'
  constructor
  · intro h
    have he := submitWithdrawal_error_state hf e0 D N verify h
    exact ⟨he, by rw [he], by rw [he], by rw [he], by rw [he], by rw [he]⟩
  · intro h
    exact submitDeposit_error_state hf e0 D N h

/-- Witness for C2: a withdrawal against an unknown root at the initial
depth-2 ledger errors, and the returned state is exactly the initial
ledger. -/
theorem rejected_transition_witness :
    (submitWithdrawal hfC 0 2 4 verTrue (initLedger hfC 0 2) 0 ⟨999, 1, [], 0⟩).2 =
      initLedger hfC 0 2 :=
  ((rejected_transition_leaves_state_unchanged hfC 0 2 4 verTrue (initLedger hfC 0 2) 0
    ⟨999, 1, [], 0⟩ 0 0 .StaleOrUnknownRoot .AccumulatorFull).1 (by decide)).1

/-- C3: across any sequence of transitions (accepted or rejected deposits
and withdrawals), the leaf sequence only ever grows by appending — every
already-set leaf keeps its value and position — and the leaf counter never
decreases. -/
theorem accumulator_append_only :
    ∀ (hf : Nat → Nat → Nat) (e0 D N : Nat) (verify : Nat → PublicInputs → Bool)
      (s : Ledger) (ops : List Op),
      (∃ t, (applyOps hf e0 D N verify s ops).acc.leaves = s.acc.leaves ++ t) ∧
      s.acc.nextLeafIndex ≤ (applyOps hf e0 D N verify s ops).acc.nextLeafIndex ∧
      (∀ i, i < s.acc.leaves.length →
        (applyOps hf e0 D N verify s ops).acc.leaves.getD i 0 = s.acc.leaves.getD i 0) := by
  intro hf e0 D N verify s ops
  obtain ⟨t, u, hl, hn, _⟩ := applyOps_extends hf e0 D N verify s ops
  refine ⟨⟨t, hl⟩, by omega, ?_⟩
  intro i hi
  rw [hl]
  exact List.getD_append s.acc.leaves t 0 i hi

/-- Witness for C3: after a further deposit and a successful withdrawal on
top of `ledgerW1`, leaf 0 still holds commitment `5`. -/
theorem accumulator_append_only_witness :
    (applyOps hfC 0 1 4 verTrue ledgerW1
      [.deposit 6 0, .withdraw 0 ⟨getRoot ledgerW1, 3, [], 0⟩]).acc.leaves.getD 0 0 =
      ledgerW1.acc.leaves.getD 0 0 :=
  (accumulator_append_only hfC 0 1 4 verTrue ledgerW1
    [.deposit 6 0, .withdraw 0 ⟨getRoot ledgerW1, 3, [], 0⟩]).2.2 0 (by decide)

/-- C4: after any sequence of transitions from the initial ledger,
`getRoot()` equals the Merkle root recomputed from scratch over the leaf
sequence padded with the fixed empty-leaf value to the fixed depth `D` —
the incrementally maintained `currentRoot` always agrees with the
from-scratch reference definition `rootPadded`. -/
theorem current_root_matches_recomputed_root :
    ∀ (hf : Nat → Nat → Nat) (e0 D N : Nat) (verify : Nat → PublicInputs → Bool)
      (ops : List Op),
      getRoot (applyOps hf e0 D N verify (initLedger hf e0 D) ops) =
        rootPadded hf e0 D (applyOps hf e0 D N verify (initLedger hf e0 D) ops).acc.leaves := by
  intro hf e0 D N verify ops
  obtain ⟨h1, h2, h3, h4⟩ :=
    applyOps_inv hf e0 D N verify (initLedger_inv hf e0 D) ops
  rw [rootPadded_eq_rootUp hf e0 D _ h2]
  exact h4


section DepositTraceLemmas

variable (hf : Nat → Nat → Nat) (e0 D N : Nat)

theorem depositAll_trace :
    ∀ (cs : List Nat) (s : Ledger) (j : Nat),
      s.acc.nextLeafIndex ≤ 2 ^ D → j < cs.length →
      (s.acc.nextLeafIndex + j < 2 ^ D →
        ∃ r, (depositAll hf e0 D N s cs).1.get? j =
          some (.ok (s.acc.nextLeafIndex + j, r))) ∧
      (2 ^ D ≤ s.acc.nextLeafIndex + j →
        (depositAll hf e0 D N s cs).1.get? j = some (.error .AccumulatorFull))
  | [], s, j, hcap, hj => by simp at hj
  | c :: cs, s, j, hcap, hj => by
    have hj' : j < cs.length + 1 := by simpa using hj
    have hd : depositAll hf e0 D N s (c :: cs) =
        ((submitDeposit hf e0 D N s c 0).1 ::
          (depositAll hf e0 D N (submitDeposit hf e0 D N s c 0).2 cs).1,
          (depositAll hf e0 D N (submitDeposit hf e0 D N s c 0).2 cs).2) := by
      simp [depositAll]
    rcases submitDeposit_shape hf e0 D N s c 0 with ⟨e, herr, hep⟩ | ⟨i, a', heq, hok⟩
    · have hfull := (insert_error_iff hf e0 D N).mp herr
      have hs' : (submitDeposit hf e0 D N s c 0).2 = s := by rw [hep]
      cases j with
      | zero =>
        constructor
        · intro hlt
          omega
        · intro _
          rw [hd]
          show some ((submitDeposit hf e0 D N s c 0).1) = _
          rw [hep, hfull.2]
      | succ j' =>
        have ih := depositAll_trace cs s j' hcap (by omega)
        constructor
        · intro hlt
          omega
        · intro _
          rw [hd]
          show (depositAll hf e0 D N (submitDeposit hf e0 D N s c 0).2 cs).1.get? j' = _
          rw [hs']
          exact ih.2 (by omega)
    · obtain ⟨hi, ha⟩ := insert_ok_shape hf e0 D N heq
      have hnfull : s.acc.nextLeafIndex ≠ 2 ^ D := by
        intro hfl
        rw [Accumulator.insert, if_pos hfl] at heq
        exact absurd heq (by simp)
      have hs' : (submitDeposit hf e0 D N s c 0).2 = { s with acc := a' } := by rw [hok]
      have hnext : a'.nextLeafIndex = s.acc.nextLeafIndex + 1 := by rw [ha]
      cases j with
      | zero =>
        constructor
        · intro hlt
          refine ⟨a'.currentRoot, ?_⟩
          rw [hd]
          show some ((submitDeposit hf e0 D N s c 0).1) = _
          rw [hok, hi]
          simp
        · intro hge
          omega
      | succ j' =>
        have ihcap : ({ s with acc := a' } : Ledger).acc.nextLeafIndex ≤ 2 ^ D := by
          show a'.nextLeafIndex ≤ 2 ^ D
          omega
        have ih := depositAll_trace cs { s with acc := a' } j' ihcap (by omega)
        have hidx : ({ s with acc := a' } : Ledger).acc.nextLeafIndex + j' =
            s.acc.nextLeafIndex + (j' + 1) := by
          show a'.nextLeafIndex + j' = _
          omega
        rw [hidx] at ih
        constructor
        · intro hlt
          obtain ⟨r, hr⟩ := ih.1 hlt
          refine ⟨r, ?_⟩
          rw [hd]
          show (depositAll hf e0 D N (submitDeposit hf e0 D N s c 0).2 cs).1.get? j' = _
          rw [hs']
          exact hr
        · intro hge
          rw [hd]
          show (depositAll hf e0 D N (submitDeposit hf e0 D N s c 0).2 cs).1.get? j' = _
          rw [hs']
          exact ih.2 hge

end DepositTraceLemmas

/-- C5: the accumulator's `insert` — and hence `submitDeposit` — fails with
`AccumulatorFull` exactly when `nextLeafIndex == 2^D`; consequently a
straight-line deposit trace from the empty ledger hands out the distinct
consecutive leaf indices 0, 1, 2, …, the first `2^D` deposits succeed, and
every deposit past capacity (in particular deposit number `2^D + 1`) fails
with `AccumulatorFull`. -/
theorem accumulator_full_iff_capacity :
    ∀ (hf : Nat → Nat → Nat) (e0 D N : Nat) (a : Accumulator) (c : Nat) (s : Ledger)
      (amt : Nat) (cs : List Nat) (j : Nat),
      (a.insert hf e0 D N c = .error .AccumulatorFull ↔ a.nextLeafIndex = 2 ^ D) ∧
      ((submitDeposit hf e0 D N s c amt).1 = .error .AccumulatorFull ↔
        s.acc.nextLeafIndex = 2 ^ D) ∧
      (j < cs.length →
        (j < 2 ^ D → ∃ r,
          (depositAll hf e0 D N (initLedger hf e0 D) cs).1.get? j = some (.ok (j, r))) ∧
        (2 ^ D ≤ j →
          (depositAll hf e0 D N (initLedger hf e0 D) cs).1.get? j =
            some (.error .AccumulatorFull))) := by
  intro hf e0 D N a c s amt cs j
  refine ⟨?_, ?_, ?_⟩
  · constructor
    · intro h
      exact ((insert_error_iff hf e0 D N).mp h).1
    · intro h
      exact (insert_error_iff hf e0 D N).mpr ⟨h, rfl⟩
  · rcases submitDeposit_shape hf e0 D N s c amt with ⟨e, herr, hep⟩ | ⟨i, a', heq, hok⟩
    · have hfull := (insert_error_iff hf e0 D N).mp herr
      rw [hep, hfull.2]
      simp [hfull.1]
    · have hnfull : s.acc.nextLeafIndex ≠ 2 ^ D := by
        intro hfl
        rw [Accumulator.insert, if_pos hfl] at heq
        exact absurd heq (by simp)
      rw [hok]
      simp [hnfull]
  · intro hj
    have ht := depositAll_trace hf e0 D N cs (initLedger hf e0 D) j (by simp [initLedger]) hj
    have hzero : (initLedger hf e0 D).acc.nextLeafIndex = 0 := rfl
    rw [hzero] at ht
    simpa using ht

/-- Witness for C5: on a depth-1 tree (capacity 2), the third deposit of a
three-deposit trace fails with `AccumulatorFull`. -/
theorem accumulator_full_witness :
    (depositAll hfC 0 1 4 (initLedger hfC 0 1) [11, 12, 13]).1.get? 2 =
      some (.error .AccumulatorFull) :=
  ((accumulator_full_iff_capacity hfC 0 1 4 (initLedger hfC 0 1).acc 0 (initLedger hfC 0 1)
    0 [11, 12, 13] 2).2.2 (by decide)).2 (by decide)


section HistoryLemmas

variable (hf : Nat → Nat → Nat) (e0 D N : Nat)

theorem take_append_take :
    ∀ (p l : List Nat) (n m : Nat), n ≤ m → (p ++ l.take m).take n = (p ++ l).take n
  | [], l, n, m, h => by
    simp only [List.nil_append]
    rw [List.take_take]
    rw [min_eq_left h]
  | x :: p, l, n, m, h => by
    cases n with
    | zero => simp
    | succ n' =>
      simp only [List.cons_append, List.take_succ_cons]
      rw [take_append_take p l n' m (by omega)]

theorem rootsAfter_length :
    ∀ (cs : List Nat) (s : Ledger), (rootsAfter hf e0 D N s cs).length = cs.length
  | [], _ => rfl
  | c :: cs, s => by
    show (getRoot _ :: rootsAfter hf e0 D N _ cs).length = _
    simp only [List.length_cons, rootsAfter_length cs]

theorem depositAll_hist :
    ∀ (cs : List Nat) (s : Ledger),
      s.acc.nextLeafIndex + cs.length ≤ 2 ^ D →
      s.acc.rootHistory.length ≤ N →
      (depositAll hf e0 D N s cs).2.acc.rootHistory =
        ((rootsAfter hf e0 D N s cs).reverse ++ s.acc.rootHistory).take N
  | [], s, _, hlen => by
    simp [depositAll, rootsAfter, List.take_of_length_le hlen]
  | c :: cs, s, hcap, hlen => by
    have hcap1 : s.acc.nextLeafIndex + (cs.length + 1) ≤ 2 ^ D := by simpa using hcap
    rcases submitDeposit_shape hf e0 D N s c 0 with ⟨e, herr, hep⟩ | ⟨i, a', heq, hok⟩
    · exfalso
      have hfull := (insert_error_iff hf e0 D N).mp herr
      omega
    · obtain ⟨hi, ha⟩ := insert_ok_shape hf e0 D N heq
      have hs' : (submitDeposit hf e0 D N s c 0).2 = { s with acc := a' } := by rw [hok]
      have hnext : a'.nextLeafIndex = s.acc.nextLeafIndex + 1 := by rw [ha]
      have hhist : a'.rootHistory = (a'.currentRoot :: s.acc.rootHistory).take N := by
        rw [ha]
      have hhlen : a'.rootHistory.length ≤ N := by
        rw [hhist]
        simp [List.length_take]
      have ih := depositAll_hist cs ({ s with acc := a' } : Ledger)
        (by
          show a'.nextLeafIndex + cs.length ≤ 2 ^ D
          omega)
        (by simpa using hhlen)
      have hd2 : (depositAll hf e0 D N s (c :: cs)).2 =
          (depositAll hf e0 D N ({ s with acc := a' } : Ledger) cs).2 := by
        simp only [depositAll]
        rw [hs']
      have hroots : rootsAfter hf e0 D N s (c :: cs) =
          a'.currentRoot :: rootsAfter hf e0 D N ({ s with acc := a' } : Ledger) cs := by
        show getRoot (submitDeposit hf e0 D N s c 0).2 ::
          rootsAfter hf e0 D N (submitDeposit hf e0 D N s c 0).2 cs = _
        rw [hs']
        rfl
      rw [hd2, ih, hroots]
      show (List.reverse _ ++ a'.rootHistory).take N = _
      rw [hhist, take_append_take _ _ N N (le_refl N), List.reverse_cons]
      rw [List.append_assoc]
      rfl

theorem depositAll_final_mem :
    ∀ (cs : List Nat) (s : Ledger), cs ≠ [] →
      getRoot (depositAll hf e0 D N s cs).2 ∈ rootsAfter hf e0 D N s cs
  | [], _, h => absurd rfl h
  | [c], s, _ => by
    show getRoot (depositAll hf e0 D N (submitDeposit hf e0 D N s c 0).2 []).2 ∈
      getRoot (submitDeposit hf e0 D N s c 0).2 ::
        rootsAfter hf e0 D N (submitDeposit hf e0 D N s c 0).2 []
    exact List.mem_singleton.mpr rfl
  | c :: c' :: cs, s, _ => by
    have ih := depositAll_final_mem (c' :: cs) ((submitDeposit hf e0 D N s c 0).2) (by simp)
    show getRoot (depositAll hf e0 D N (submitDeposit hf e0 D N s c 0).2 (c' :: cs)).2 ∈
      getRoot (submitDeposit hf e0 D N s c 0).2 ::
        rootsAfter hf e0 D N (submitDeposit hf e0 D N s c 0).2 (c' :: cs)
    exact List.mem_cons_of_mem _ ih

end HistoryLemmas

/-- C6: `isKnownRoot` is true exactly on the current root and the roots in
the bounded history; each successful insert pushes the new root onto the
history, evicting beyond capacity `N` (FIFO, oldest dropped); a withdrawal
naming an unknown root is rejected with `StaleOrUnknownRoot`; and after a
trace of at least `N` further deposits whose observed roots avoid `r`, a
withdrawal naming `r` is rejected with `StaleOrUnknownRoot` — `r` has been
evicted. -/
theorem known_root_fifo_history :
    ∀ (hf : Nat → Nat → Nat) (e0 D N : Nat) (verify : Nat → PublicInputs → Bool)
      (a : Accumulator) (r c i : Nat) (a' : Accumulator) (s : Ledger) (cs : List Nat)
      (proof : Nat) (pubIn : PublicInputs),
      (a.isKnownRoot r = true ↔ (r = a.currentRoot ∨ r ∈ a.rootHistory)) ∧
      (a.insert hf e0 D N c = .ok (i, a') →
        a'.rootHistory = (a'.currentRoot :: a.rootHistory).take N) ∧
      (pubIn.outputCommitments.length ≤ 2 → s.acc.isKnownRoot pubIn.root = false →
        submitWithdrawal hf e0 D N verify s proof pubIn = (.error .StaleOrUnknownRoot, s)) ∧
      (s.acc.nextLeafIndex + cs.length ≤ 2 ^ D →
        s.acc.rootHistory.length ≤ N →
        N ≤ cs.length → cs ≠ [] →
        pubIn.root ∉ rootsAfter hf e0 D N s cs →
        pubIn.outputCommitments.length ≤ 2 →
        submitWithdrawal hf e0 D N verify (depositAll hf e0 D N s cs).2 proof pubIn =
          (.error .StaleOrUnknownRoot, (depositAll hf e0 D N s cs).2)) := by
  intro hf e0 D N verify a r c i a' s cs proof pubIn
  refine ⟨?_, ?_, ?_, ?_⟩
  · simp [Accumulator.isKnownRoot]
  · intro h
    obtain ⟨hi, ha⟩ := insert_ok_shape hf e0 D N h
    rw [ha]
  · intro houts hk
    exact withdraw_unknown_root_rejected hf e0 D N verify houts hk
  · intro hcap hhlen hN hne hnr houts
    have hhist := depositAll_hist hf e0 D N cs s hcap hhlen
    have hRlen : (rootsAfter hf e0 D N s cs).length = cs.length :=
      rootsAfter_length hf e0 D N cs s
    have h1 : ((rootsAfter hf e0 D N s cs).reverse ++ s.acc.rootHistory).take N =
        (rootsAfter hf e0 D N s cs).reverse.take N :=
      List.take_append_of_le_length (by simp [hRlen]; omega)
    have hnotin : pubIn.root ∉ (depositAll hf e0 D N s cs).2.acc.rootHistory := by
      rw [hhist, h1]
      intro hmem
      exact hnr (by simpa using List.mem_of_mem_take hmem)
    have hcur : getRoot (depositAll hf e0 D N s cs).2 ∈ rootsAfter hf e0 D N s cs :=
      depositAll_final_mem hf e0 D N cs s hne
    have hne2 : pubIn.root ≠ (depositAll hf e0 D N s cs).2.acc.currentRoot := by
      intro h
      exact hnr (h ▸ hcur)
    have hk : (depositAll hf e0 D N s cs).2.acc.isKnownRoot pubIn.root = false := by
      simp [Accumulator.isKnownRoot]
      exact ⟨hne2, hnotin⟩
    exact withdraw_unknown_root_rejected hf e0 D N verify houts hk

/-- Witness for C6: on a depth-2 tree with history capacity 2, after three
deposits the root `999` (never produced by the trace) is unknown, and a
withdrawal naming it is rejected with `StaleOrUnknownRoot`. -/
theorem known_root_fifo_history_witness :
    submitWithdrawal hfC 0 2 2 verTrue
      (depositAll hfC 0 2 2 (initLedger hfC 0 2) [3, 4, 5]).2 0 ⟨999, 0, [], 0⟩ =
      (.error .StaleOrUnknownRoot, (depositAll hfC 0 2 2 (initLedger hfC 0 2) [3, 4, 5]).2) :=
  (known_root_fifo_history hfC 0 2 2 verTrue (initLedger hfC 0 2).acc 0 0 0
    (initLedger hfC 0 2).acc (initLedger hfC 0 2) [3, 4, 5] 0 ⟨999, 0, [], 0⟩).2.2.2
    (by decide) (by decide) (by decide) (by decide) (by decide) (by decide)


/-- C7: a withdrawal submission with more than 2 output commitments is
rejected with the structural error `TooManyOutputs` (state unchanged), while
a withdrawal with an empty output-commitment list — a full public exit — is
accepted whenever its proof verifies against a known root with a fresh
nullifier (the proviso that `publicAmount` accounts for the entire spent
value is part of what the opaque proof attests, §4.4). -/
theorem too_many_outputs_and_empty_outputs :
    ∀ (hf : Nat → Nat → Nat) (e0 D N : Nat) (verify : Nat → PublicInputs → Bool)
      (s : Ledger) (proof : Nat) (pubIn pubIn' : PublicInputs),
      (2 < pubIn.outputCommitments.length →
        submitWithdrawal hf e0 D N verify s proof pubIn = (.error .TooManyOutputs, s)) ∧
      (pubIn'.outputCommitments = [] →
        s.acc.isKnownRoot pubIn'.root = true →
        pubIn'.nullifier ∉ s.nullifiers →
        verify proof pubIn' = true →
        submitWithdrawal hf e0 D N verify s proof pubIn' =
          (.ok ([], s.acc.currentRoot),
            { acc := s.acc, nullifiers := s.nullifiers ++ [pubIn'.nullifier] })) := by
  intro hf e0 D N verify s proof pubIn pubIn'
  constructor
  · intro h
    unfold submitWithdrawal
    rw [if_pos h]
  · intro hout hk hnm hv
    have hc : s.nullifiers.contains pubIn'.nullifier = false := contains_false_of_not_mem hnm
    have hni : NullifierSet.insert s.nullifiers pubIn'.nullifier =
        .ok (s.nullifiers ++ [pubIn'.nullifier]) := by
      unfold NullifierSet.insert
      rw [if_neg (by rw [hc]; simp)]
    have hib : insertBatch hf e0 D N s.acc [] = .ok ([], s.acc) := rfl
    unfold submitWithdrawal
    rw [hout, if_neg (by simp), verifyWithdrawal_accepted verify hk hc hv, hni, hib]

/-- Witness for C7: at `ledgerW1` a full-public-exit withdrawal (no output
commitments) with a fresh nullifier, the current root, and an accepting
verifier succeeds and registers the nullifier. -/
theorem too_many_outputs_witness :
    submitWithdrawal hfC 0 1 4 verTrue ledgerW1 0 ⟨getRoot ledgerW1, 7, [], 0⟩ =
      (.ok ([], ledgerW1.acc.currentRoot),
        { acc := ledgerW1.acc, nullifiers := ledgerW1.nullifiers ++ [7] }) :=
  (too_many_outputs_and_empty_outputs hfC 0 1 4 verTrue ledgerW1 0 ⟨0, 0, [0, 0, 0], 0⟩
    ⟨getRoot ledgerW1, 7, [], 0⟩).2 (by decide) (by decide) (by decide) (by decide)

section AppLemmas

theorem kycTicks_success (fd : FormData) :
    ∀ (incs : List ℤ) (p : ℤ), (∀ i ∈ incs, (2:ℤ) ≤ i) → incs ≠ [] →
      (102:ℤ) ≤ p + 2 * incs.length →
      kycTicks fd p incs = ⟨.success, 100, some (kycDataOf fd)⟩
  | [], _, _, hne, _ => absurd rfl hne
  | inc :: t, p, hall, _, hsum => by
    by_cases hp : (100:ℤ) ≤ p
    · simp [kycTicks, hp]
    · have h2 : (2:ℤ) ≤ inc := hall inc (by simp)
      cases t with
      | nil =>
        exfalso
        simp only [List.length_cons, List.length_nil] at hsum
        push_cast at hsum
        exact hp (by linarith)
      | cons i2 t2 =>
        have ih := kycTicks_success fd (i2 :: t2) (p + inc)
          (fun x hx => hall x (List.mem_cons_of_mem _ hx))
          (by simp)
          (by
            simp only [List.length_cons] at hsum ⊢
            push_cast at hsum ⊢
            linarith)
        simpa [kycTicks, hp] using ih

theorem genTicks_complete :
    ∀ (incs : List ℤ) (p : ℤ) (j : Nat), j + 1 ≤ incs.length →
      (100:ℤ) ≤ p + (incs.take j).sum →
      genTicks p incs = ⟨.complete, 100, .complete⟩
  | [], _, j, hj, _ => by simp at hj
  | inc :: t, p, j, hj, hsum => by
    by_cases hp : (100:ℤ) ≤ p
    · simp [genTicks, hp]
    · cases j with
      | zero =>
        exfalso
        simp only [List.take_zero, List.sum_nil, add_zero] at hsum
        exact hp hsum
      | succ j' =>
        have ih := genTicks_complete t (p + inc) j' (by simpa using hj)
          (by
            simp only [List.take_succ_cons, List.sum_cons] at hsum
            linarith)
        simpa [genTicks, hp] using ih

end AppLemmas

/-- C8: on any two form inputs accepted by `isFormValid`, and any
sufficiently long run of the mock-verification timer (each source increment
is `Math.random() * 8 + 2 ≥ 2`, and 51 ticks always suffice to cross 100),
`handleVerify` reaches the `success` step and stores KYC data with
`isVerified := true` — the verification outcome is the same in both runs,
whatever the actual Aadhaar/PAN/name/phone values, and no external
verification service exists anywhere in the embedded transition (a timer
simulation is all there is). -/
theorem kyc_verification_input_independent :
    ∀ (fd1 fd2 : FormData) (incs : List ℤ),
      isFormValid fd1 = true → isFormValid fd2 = true →
      (∀ i ∈ incs, (2:ℤ) ≤ i) → 51 ≤ incs.length →
      handleVerify fd1 incs = ⟨.success, 100, some (kycDataOf fd1)⟩ ∧
      handleVerify fd2 incs = ⟨.success, 100, some (kycDataOf fd2)⟩ ∧
      (kycDataOf fd1).isVerified = true ∧
      (kycDataOf fd2).isVerified = true ∧
      (handleVerify fd1 incs).step = (handleVerify fd2 incs).step := by
  intro fd1 fd2 incs hv1 hv2 hall hlen
  have hne : incs ≠ [] := by
    intro h
    subst h
    simp at hlen
  have hsum : (102:ℤ) ≤ 0 + 2 * (incs.length : ℤ) := by
    have h51 : (51:ℤ) ≤ (incs.length : ℤ) := by exact_mod_cast hlen
    linarith
  have h1 : handleVerify fd1 incs = ⟨.success, 100, some (kycDataOf fd1)⟩ := by
    unfold handleVerify
    rw [if_pos hv1]
    exact kycTicks_success fd1 incs 0 hall hne hsum
  have h2 : handleVerify fd2 incs = ⟨.success, 100, some (kycDataOf fd2)⟩ := by
    unfold handleVerify
    rw [if_pos hv2]
    exact kycTicks_success fd2 incs 0 hall hne hsum
  exact ⟨h1, h2, rfl, rfl, by rw [h1, h2]⟩

/-- Witness for C8: two concrete, different valid form inputs both drive the
simulated verification to `success` with `isVerified := true`, with equal
outcomes. -/
theorem kyc_verification_witness :
    handleVerify fdW1 (List.replicate 51 (2:ℤ)) = ⟨.success, 100, some (kycDataOf fdW1)⟩ ∧
    handleVerify fdW2 (List.replicate 51 (2:ℤ)) = ⟨.success, 100, some (kycDataOf fdW2)⟩ ∧
    (kycDataOf fdW1).isVerified = true ∧
    (kycDataOf fdW2).isVerified = true ∧
    (handleVerify fdW1 (List.replicate 51 (2:ℤ))).step =
      (handleVerify fdW2 (List.replicate 51 (2:ℤ))).step :=
  kyc_verification_input_independent fdW1 fdW2 (List.replicate 51 (2:ℤ))
    (by decide) (by decide) (by decide) (by decide)

/-- C9: pressing GENERATE creates and stores no key material whatsoever:
`handleGenerate` only folds the timer's random increments into a progress
value, and once the accumulated progress reaches 100 with a tick to spare
it yields exactly the `complete` screen step and advances onboarding to
`complete`; moreover every possible run ends in one of exactly two states —
completed, or still generating with some progress — and the embedded
component state (faithful to the source's `useState` fields) has no
entropy, private-key or public-key component at all. -/
theorem key_generation_screen_generates_no_keys :
    ∀ (incs : List ℤ) (j : Nat),
      (j + 1 ≤ incs.length → (100:ℤ) ≤ (incs.take j).sum →
        handleGenerate incs = ⟨.complete, 100, .complete⟩) ∧
      (handleGenerate incs = ⟨.complete, 100, .complete⟩ ∨
        ∃ p, handleGenerate incs = ⟨.generating, p, .keys⟩) := by
  intro incs j
  constructor
  · intro hj hsum
    unfold handleGenerate
    exact genTicks_complete incs 0 j hj (by simpa using hsum)
  · unfold handleGenerate
    generalize (0:ℤ) = p
    induction incs generalizing p with
    | nil => exact Or.inr ⟨p, rfl⟩
    | cons i t ih =>
      by_cases hp : (100:ℤ) ≤ p
      · exact Or.inl (by simp [genTicks, hp])
      · simpa [genTicks, hp] using ih (p + i)

/-- Witness for C9: a concrete run of 35 ticks of 3 crosses 100 at tick 34
and ends with the screen `complete` and onboarding advanced. -/
theorem key_generation_witness :
    handleGenerate (List.replicate 35 (3:ℤ)) = ⟨.complete, 100, .complete⟩ :=
  (key_generation_screen_generates_no_keys (List.replicate 35 (3:ℤ)) 34).1
    (by decide) (by decide)

/-- C10: every `connectWallet` call with the `walletconnect` type yields the
same hardcoded result, whatever the prior wallet state and whatever the
external MetaMask transition would do: connected, address
`0x742d35Cc6634C0532925a3b8D4C9db96590C4C5b`, chain "1", balance "2.5",
the demo JSON-RPC provider, no error — and the mock connection persisted
via `saveConnection`.  (The fixed 2-second delay of the source's
`setTimeout` is wall-clock behaviour, outside the embedded transition.) -/
theorem walletconnect_mock_connection_constant :
    ∀ (mm : WalletWorld → WalletWorld) (w w' : WalletWorld),
      connectWallet mm .walletconnect w = connectWallet mm .walletconnect w' ∧
      connectWallet mm .walletconnect w =
        ⟨⟨true, some mockWalletAddress, some .jsonRpcDemo, some .walletconnect,
          some "1", some "2.5", false, none⟩,
          some ("walletconnect", mockWalletAddress)⟩ := by
  intro mm w w'
  exact ⟨rfl, rfl⟩

end ZkEther
